import Mathlib

/-!
# Verification of the CSV Email Filter core (src/main.py)

A shallow embedding of the extraction-and-classification engine of the
CSV Email Filter: the email extractor (`extract_emails_from_text`), the
suspicion classifier (`is_suspicious_email`), the partitioner
(`filter_suspicious_emails`), the record store (`insertOrMerge`), the CSV
ingester's header detection and row processing (`find_emails_in_csv`), and
the VCF ingester (`parse_vcf_file`), together with theorems settling the
frozen claims about them.

Modelling conventions, fixed once here:

* Python strings are modelled as `List Char` (wrapped in `String` at
  function boundaries).  Python's `str.lower`, `str.isdigit`,
  `str.strip` and the regex classes `\w`, `[A-Za-z]` are modelled with
  Lean's ASCII `Char.toLower`, `Char.isDigit`, `Char.isWhitespace`,
  `Char.isAlpha`; Python's Unicode case/class tables agree with these on
  ASCII, which is where every claim lives.
* Python floats: the classifier compares `vowel_count < len * 0.15` and
  `digit_ratio > 0.7`.  Both are modelled by the exact rational
  comparisons `20 * vowels < 3 * len` and `10 * digits > 7 * len`; for
  `len` in the range of an email address the rational value is either
  equal to the float result or farther than 1/(20·len) from the
  threshold, far outside double rounding error, so the integer model is
  exact.
* `re.match(p, s)` anchors at the start; a trailing `$` accepts the end
  of the string or a position just before one final newline.  `re.search`
  and `re.findall` scan left to right.  Each fixed pattern of the source
  is compiled by hand into a matcher that reproduces the backtracking
  order of Python's engine for that pattern (greedy quantifiers try the
  longest run first; every hand compilation is justified in a comment at
  the matcher).
* Python `set` values that the source iterates over are modelled as
  lists deduplicated with `List.dedup`; every use below is insensitive to
  the iteration order, matching the unspecified order of a Python set.
* Python `dict` (insertion ordered, keyed by email) is modelled as a
  `List EmailRecord` with at most one record per email.
-/

/-- `EmailRecord` from src/main.py: an email with name information. -/
structure EmailRecord where
  first_name : String
  last_name : String
  email : String
deriving DecidableEq, Repr

/-- Python `needle in hay` for strings: `sub` occurs as a contiguous
substring of `l`. -/
def startsWithL : List Char → List Char → Bool
  | [], _ => true
  | _ :: _, [] => false
  | a :: as, b :: bs => a == b && startsWithL as bs

/-- Substring containment (Python's `in` on strings). -/
def containsSub (needle : List Char) : List Char → Bool
  | [] => needle.isEmpty
  | l@(_ :: rest) => startsWithL needle l || containsSub needle rest

/-- `s.strip()` on a character list: drop Unicode whitespace from both
ends (ASCII model, see header). -/
def pyStripL (l : List Char) : List Char :=
  ((l.dropWhile Char.isWhitespace).reverse.dropWhile Char.isWhitespace).reverse

/-- `s.strip()` on a `String`. -/
def pyStrip (s : String) : String := String.mk (pyStripL s.data)

/-- The `$` anchor of `re.match(r'^...$', s)`: Python's `$` also matches
just before one final newline, so a full-string pattern accepts `s` or
`s` minus one trailing `'\n'`.  This strips that optional newline. -/
def stripNL (l : List Char) : List Char :=
  if l.getLast? = some '\n' then l.dropLast else l

/-- `email.split('@', 1) if '@' in email else ('', '')` (line 182 of
src/main.py): local part and domain of an address. -/
def splitLocalDomain (l : List Char) : List Char × List Char :=
  if l.contains '@' then
    (l.takeWhile (fun c => c != '@'), (l.dropWhile (fun c => c != '@')).tail)
  else ([], [])

/-- `[a-z0-9]` of the classifier's rules 1, 4 and 5. -/
def isLowerAlnum (c : Char) : Bool := c.isLower || c.isDigit

/-- `[A-Z0-9]` of rules 7 and 8. -/
def isUpperDigit (c : Char) : Bool := c.isUpper || c.isDigit

/-- `re.match(r'^[cls]{n,}$', s)`: the whole string (minus an optional
final newline, per `$`) is `n` or more characters of the class.  The
greedy `{n,}` is exact here because every shorter consumption leaves a
class character where `$` cannot match. -/
def matchFullClass (cls : Char → Bool) (n : Nat) (l : List Char) : Bool :=
  let s := stripNL l
  n ≤ s.length && s.all cls

/-- `sum(1 for c in local_part if c in 'aeiou')` (rules 1 and 5). -/
def vowelCount (l : List Char) : Nat :=
  (l.filter (fun c => c == 'a' || c == 'e' || c == 'i' || c == 'o' || c == 'u')).length

/-- `re.search(r'(.)\1{8,}', s)`: some character other than `'\n'`
(regex `.` does not match a newline) occurs 9 or more times in a row. -/
def hasNineRun : List Char → Bool
  | [] => false
  | c :: cs =>
    (c != '\n' && (cs.take 8).length == 8 && (cs.take 8).all (· == c)) || hasNineRun cs

/-- `re.match(r'^[a-z0-9]{25,}\.(com|net|org)$', domain)` (rule 4).
`.` is not in `[a-z0-9]`, so the greedy `{25,}` run is forced to be the
maximal lower-alphanumeric run; after it the pattern demands a literal
dot, then exactly `com`, `net` or `org`, then `$`. -/
def matchSuspiciousDomain (dom : List Char) : Bool :=
  let d := stripNL dom
  let run := d.takeWhile isLowerAlnum
  25 ≤ run.length &&
    match d.drop run.length with
    | '.' :: t => t == "com".data || t == "net".data || t == "org".data
    | _ => false

/-- One `cls+` segment followed by a literal separator character: the
class never contains the separator, so the greedy run is forced maximal
and the match is deterministic.  Returns what follows the separator. -/
def expectSeg (cls : Char → Bool) (sep : Char) (l : List Char) : Option (List Char) :=
  let run := l.takeWhile cls
  if run.isEmpty then none
  else
    match l.drop run.length with
    | c :: rest => if c = sep then some rest else none
    | [] => none

/-- `re.match(r'^[A-Z0-9]+\.[0-9]+\.[0-9]+\.[0-9]+@', email)` (rule 8):
an unanchored-at-the-end prefix match.  Each class excludes the
separator that follows it, so every quantifier is forced maximal. -/
def matchRule8 (e : List Char) : Bool :=
  ((((expectSeg isUpperDigit '.' e).bind
      (expectSeg Char.isDigit '.')).bind
      (expectSeg Char.isDigit '.')).bind
      (expectSeg Char.isDigit '@')).isSome

/-- The keyword list of rule 5 (lines 216-219 of src/main.py). -/
def suspiciousKeywords : List (List Char) :=
  ["unsub".data, "unsubscribe".data, "remove".data, "optout".data,
   "noreply".data, "no-reply".data, "donotreply".data]

/-- `is_suspicious_email` (lines 170-248 of src/main.py), rule for rule
in source order; the source returns `True` at the first rule that fires,
which the nested `if` chain reproduces. -/
def is_suspicious_email (email : String) : Bool :=
  let e := email.data
  let email_lower := e.map Char.toLower
  let lp := (splitLocalDomain e).1
  let dom := (splitLocalDomain e).2
  -- Pattern 1: very long random-looking local part
  if 40 < lp.length && matchFullClass isLowerAlnum 35 lp
      && 20 * vowelCount lp < 3 * lp.length then true
  -- Pattern 2: 3+ consecutive special characters
  else if containsSub "...".data lp || containsSub "___".data lp
      || containsSub "---".data lp then true
  -- Pattern 3: excessive digits in a long local part
  else if 15 < lp.length
      && 7 * lp.length < 10 * (lp.filter Char.isDigit).length then true
  -- Pattern 4: suspicious domain
  else if matchSuspiciousDomain dom then true
  -- Pattern 5: marketing keyword plus long random local part
  else if suspiciousKeywords.any (fun k => containsSub k email_lower)
      && 30 < lp.length && matchFullClass isLowerAlnum 25 lp
      && 20 * vowelCount lp < 3 * lp.length then true
  -- Pattern 6: a character repeated 9+ times in a row
  else if hasNineRun email_lower then true
  -- Pattern 7: base64-like pattern over the entire email
  else if 30 < lp.length && matchFullClass isUpperDigit 25 e
      && lp.any Char.isUpper && lp.any Char.isDigit then true
  -- Pattern 8: dotted numeric segments before the @
  else if 35 < lp.length && matchRule8 e then true
  else false

/-- The classifier with rule 7 (lines 232-239 of src/main.py) removed;
every other rule verbatim as in `is_suspicious_email`. -/
def is_suspicious_email_without_rule7 (email : String) : Bool :=
  let e := email.data
  let email_lower := e.map Char.toLower
  let lp := (splitLocalDomain e).1
  let dom := (splitLocalDomain e).2
  if 40 < lp.length && matchFullClass isLowerAlnum 35 lp
      && 20 * vowelCount lp < 3 * lp.length then true
  else if containsSub "...".data lp || containsSub "___".data lp
      || containsSub "---".data lp then true
  else if 15 < lp.length
      && 7 * lp.length < 10 * (lp.filter Char.isDigit).length then true
  else if matchSuspiciousDomain dom then true
  else if suspiciousKeywords.any (fun k => containsSub k email_lower)
      && 30 < lp.length && matchFullClass isLowerAlnum 25 lp
      && 20 * vowelCount lp < 3 * lp.length then true
  else if hasNineRun email_lower then true
  else if 35 < lp.length && matchRule8 e then true
  else false

/-- The claim's reading of rule 6: *some* character (the newline
included) repeats 9+ times in a row.  Stated from the claim's words, to
be compared with the source's `hasNineRun`. -/
def specNineRun : List Char → Bool
  | [] => false
  | c :: cs => ((cs.take 8).length == 8 && (cs.take 8).all (· == c)) || specNineRun cs

/-! ## Email extractor (lines 154-167 of src/main.py)

The pattern `\b[A-Za-z0-9._%+-]+@[A-Za-z0-9.-]+\.[A-Z|a-z]{2,}\b` is
hand-compiled as follows.  `@` is not in the local class, so the greedy
local run is forced maximal (a shorter run would leave a local-class
character where `@` is required).  The domain class contains `.`, so the
engine genuinely backtracks there: it tries every domain length from the
maximal `[A-Za-z0-9.-]` run downwards, requiring a literal `.` at the
split; for each split the `[A-Z|a-z]{2,}` run is again tried longest
first, each candidate end checked against the final `\b`.  `re.findall`
scans positions left to right and resumes after each match. -/

/-- `[A-Za-z0-9._%+-]`, the local-part class. -/
def isLocalChar (c : Char) : Bool :=
  c.isAlpha || c.isDigit || c == '.' || c == '_' || c == '%' || c == '+' || c == '-'

/-- `[A-Za-z0-9.-]`, the domain class. -/
def isDomainChar (c : Char) : Bool := c.isAlpha || c.isDigit || c == '.' || c == '-'

/-- `[A-Z|a-z]`: the top-level-label class of the source's pattern.  It
contains the literal `|` besides the letters. -/
def isTldChar (c : Char) : Bool := c.isAlpha || c == '|'

/-- `\w` for the `\b` boundary (ASCII model, see header). -/
def isWordChar (c : Char) : Bool := c.isAlphanum || c == '_'

/-- Try the `[A-Z|a-z]{2,}\b` tail: `t` counts down the candidate label
lengths from the maximal `isTldChar` run; a candidate succeeds when a
word boundary follows it (`rest` holds the characters after the dot). -/
def tryTld (rest : List Char) : Nat → Option Nat
  | 0 => none
  | 1 => none
  | t + 2 =>
    let lastC := rest.getD (t + 1) ' '
    let bnd :=
      match rest.get? (t + 2) with
      | some c => isWordChar lastC != isWordChar c
      | none => isWordChar lastC != false
    if bnd then some (t + 2) else tryTld rest (t + 1)

/-- Try the `[A-Za-z0-9.-]+\.[A-Z|a-z]{2,}\b` tail after the `@`:
`k + 1` is the candidate domain length, counting down from the maximal
domain-class run; a literal `.` must follow the candidate domain.
Returns the matched text and the remainder of the input. -/
def tryDom (loc rest2 : List Char) : Nat → Option (List Char × List Char)
  | 0 => none
  | k + 1 =>
    if rest2.get? (k + 1) = some '.' then
      match tryTld (rest2.drop (k + 2)) ((rest2.drop (k + 2)).takeWhile isTldChar).length with
      | some t =>
        some (loc ++ '@' :: (rest2.take (k + 1) ++ '.' :: (rest2.drop (k + 2)).take t),
              (rest2.drop (k + 2)).drop t)
      | none => tryDom loc rest2 k
    else tryDom loc rest2 k

/-- One anchored attempt of the full pattern at the head of `s`; `prev`
is the wordness of the character just before `s` (for the leading
`\b`). -/
def tryMatch (s : List Char) (prev : Bool) : Option (List Char × List Char) :=
  match s with
  | [] => none
  | c :: _ =>
    if prev != isWordChar c then
      let loc := s.takeWhile isLocalChar
      if loc.isEmpty then none
      else
        match s.drop loc.length with
        | '@' :: rest2 => tryDom loc rest2 (rest2.takeWhile isDomainChar).length
        | _ => none
    else none

/-- The `re.findall` scan: attempt a match at every position, resume
after each match.  `fuel` starts at `length + 1` and each step consumes
at least one character, so the fuel never runs out. -/
def scanEmails : Nat → List Char → Bool → List (List Char)
  | 0, _, _ => []
  | _ + 1, [], _ => []
  | fuel + 1, c :: rest, prev =>
    match tryMatch (c :: rest) prev with
    | some (m, after) => m :: scanEmails fuel after (isWordChar (m.getLastD ' '))
    | none => scanEmails fuel rest (isWordChar c)

/-- All matches of the email pattern in `l`, in scan order. -/
def findallEmails (l : List Char) : List (List Char) :=
  scanEmails (l.length + 1) l false

/-- `extract_emails_from_text` (lines 154-167 of src/main.py): the set of
unique matches, modelled as a deduplicated list. -/
def extract_emails_from_text (text : String) : List String :=
  ((findallEmails text.data).map String.mk).dedup

/-- The characters after the last `'.'` of a string (the top-level label
the claim about the extractor speaks of). -/
def afterLastDot (l : List Char) : List Char :=
  (l.reverse.takeWhile (fun c => c != '.')).reverse

/-! ## Record store (the `email_records` dict of both ingesters)

Lines 383-394 (CSV) and 133-143 (VCF) of src/main.py share the same
insert-or-merge step on a dict keyed by email; the dict is modelled as an
insertion-ordered list with at most one record per email. -/

/-- The merge of lines 388-394 / 137-143: fill a name field only when it
is empty and the new sighting carries a non-empty value (Python string
truthiness: `not existing.first_name and first_name`). -/
def mergeRecord (r : EmailRecord) (fn ln : String) : EmailRecord :=
  { r with
    first_name := if r.first_name = "" ∧ fn ≠ "" then fn else r.first_name
    last_name := if r.last_name = "" ∧ ln ≠ "" then ln else r.last_name }

/-- `email_records[email]`-style lookup: the first (and, by the store
invariant, only) record keyed by `em`. -/
def findByEmail : List EmailRecord → String → Option EmailRecord
  | [], _ => none
  | r :: t, em => if r.email == em then some r else findByEmail t em

/-- One `if email not in email_records: ... else: ...` step. -/
def insertOrMerge (store : List EmailRecord) (fn ln em : String) : List EmailRecord :=
  if store.any (fun r => r.email == em) then
    store.map (fun r => if r.email == em then mergeRecord r fn ln else r)
  else store ++ [⟨fn, ln, em⟩]

/-- A sighting of an email together with the row's/card's names. -/
def applySightings (store : List EmailRecord) (ops : List (String × String × String)) :
    List EmailRecord :=
  ops.foldl (fun s op => insertOrMerge s op.1 op.2.1 op.2.2) store

/-- Lexicographic code-point comparison of strings, Python's `<=` on
`str` (used as the sort key comparison). -/
def listLe : List Char → List Char → Bool
  | [], _ => true
  | _ :: _, [] => false
  | a :: as, b :: bs => if a = b then listLe as bs else decide (a < b)

/-- `sorted(list(email_records.values()), key=lambda x: x.email)`
(lines 151 / 402): a stable sort ascending by the email string. -/
def sortByEmail (l : List EmailRecord) : List EmailRecord :=
  l.insertionSort (fun a b => listLe a.email.data b.email.data = true)

/-- `filter_suspicious_emails` (lines 251-270 of src/main.py): one pass
appending each record to the valid or the suspicious list. -/
def filter_suspicious_emails (records : List EmailRecord) :
    List EmailRecord × List EmailRecord :=
  records.foldl
    (fun acc record =>
      if is_suspicious_email record.email then (acc.1, acc.2 ++ [record])
      else (acc.1 ++ [record], acc.2))
    ([], [])

/-! ## CSV ingester (lines 273-402 of src/main.py)

`find_emails_in_csv` reads the file, picks a delimiter (`csv.Sniffer`
over the first 1024 characters, then a count-based fallback), and either
treats the content as free text (no delimiter found) or as parsed rows.
The file decoding, the sniffer and the `csv.reader` row-splitting are
I/O and library collaborators; the model takes their outputs — the raw
content string for the free-text branch and the parsed
`rows : List (List String)` for the tabular branch — and embeds
everything from line 308 (free text) / 320 (tabular) down. -/

/-- Index of the first element satisfying `p` (the `for … break` inner
loops of the header scan). -/
def firstIdx {α : Type} (p : α → Bool) : List α → Option Nat
  | [] => none
  | a :: l => if p a then some 0 else (firstIdx p l).map (· + 1)

/-- `cell.lower().strip()` (line 331). -/
def normCell (s : String) : String := pyStrip (String.mk (s.data.map Char.toLower))

/-- `'first' in cell and 'name' in cell` on a normalized cell. -/
def isFNCellN (c : String) : Bool :=
  containsSub "first".data c.data && containsSub "name".data c.data

/-- `'last' in cell and 'name' in cell` on a normalized cell. -/
def isLNCellN (c : String) : Bool :=
  containsSub "last".data c.data && containsSub "name".data c.data

/-- `'email' in cell or 'e-mail' in cell or 'mail' in cell`. -/
def isEMCellN (c : String) : Bool :=
  containsSub "email".data c.data || containsSub "e-mail".data c.data
    || containsSub "mail".data c.data

/-- The four header-scan variables of lines 324-327. -/
structure HeaderState where
  firstNameCol : Option Nat
  lastNameCol : Option Nat
  emailCols : List Nat
  headerRow : Option Nat
deriving DecidableEq, Repr

/-- The email-column loop of lines 347-353: no `break`; every matching
new column is appended and `header_row` is set only if still unset. -/
def emailScan (i : Nat) : List String → Nat → HeaderState → HeaderState
  | [], _, st => st
  | c :: cs, j, st =>
    let st2 :=
      if isEMCellN c then
        if st.emailCols.contains j then st
        else
          { st with
            emailCols := st.emailCols ++ [j]
            headerRow := match st.headerRow with | none => some i | some h => some h }
      else st
    emailScan i cs (j + 1) st2

/-- One header-scan row (lines 330-353).  Note the source's asymmetry:
the first-name branch assigns `header_row = i` unconditionally, while
the last-name and email branches only set it when it is still unset. -/
def headerStep (i : Nat) (row : List String) (st : HeaderState) : HeaderState :=
  let rl := row.map normCell
  let st1 :=
    match st.firstNameCol with
    | none =>
      match firstIdx isFNCellN rl with
      | some j => { st with firstNameCol := some j, headerRow := some i }
      | none => st
    | some _ => st
  let st2 :=
    match st1.lastNameCol with
    | none =>
      match firstIdx isLNCellN rl with
      | some j =>
        { st1 with
          lastNameCol := some j
          headerRow := match st1.headerRow with | none => some i | some h => some h }
      | none => st1
    | some _ => st1
  emailScan i rl 0 st2

/-- The scan over the first 5 rows. -/
def headerLoop : List (List String) → Nat → HeaderState → HeaderState
  | [], _, st => st
  | r :: rs, i, st => headerLoop rs (i + 1) (headerStep i r st)

/-- Header detection over `rows[:5]` (line 330). -/
def headerScan (rows : List (List String)) : HeaderState :=
  headerLoop (rows.take 5) 0 ⟨none, none, [], none⟩

/-- `start_row = header_row + 1 if header_row is not None else 0`
(line 356). -/
def csvStartRow (rows : List (List String)) : Nat :=
  match (headerScan rows).headerRow with
  | some h => h + 1
  | none => 0

/-- The `found_emails` set of one data row (lines 369-381): the email
columns are scanned first, then every non-empty cell; the set is the
deduplicated union. -/
def rowEmails (emailCols : List Nat) (row : List String) : List String :=
  let fromCols := emailCols.foldl
    (fun acc j =>
      match row.get? j with
      | some cell => if pyStrip cell ≠ "" then acc ++ extract_emails_from_text cell else acc
      | none => acc) []
  let fromAll := row.foldl
    (fun acc cell =>
      if cell ≠ "" ∧ pyStrip cell ≠ "" then acc ++ extract_emails_from_text cell else acc)
    fromCols
  fromAll.dedup

/-- One data row (lines 358-394): read the names from the detected
columns when in range, then insert-or-merge every found email. -/
def processRow (ctx : HeaderState) (store : List EmailRecord) (row : List String) :
    List EmailRecord :=
  let fn :=
    match ctx.firstNameCol with
    | some j => match row.get? j with | some c => pyStrip c | none => ""
    | none => ""
  let ln :=
    match ctx.lastNameCol with
    | some j => match row.get? j with | some c => pyStrip c | none => ""
    | none => ""
  (rowEmails ctx.emailCols row).foldl (fun s em => insertOrMerge s fn ln em) store

/-- The tabular branch of `find_emails_in_csv` (lines 314-402), from the
parsed rows down: header detection, data-row processing, final sort. -/
def find_emails_in_csv_tabular (rows : List (List String)) : List EmailRecord :=
  if rows = [] then []
  else
    let ctx := headerScan rows
    sortByEmail ((rows.drop (csvStartRow rows)).foldl (processRow ctx) [])

/-- The free-text branch of `find_emails_in_csv` (lines 308-313 and
402): no delimiter was found, every discovered email gets empty names.
The source only inserts fresh emails here (the extractor's set holds no
duplicates anyway). -/
def find_emails_in_csv_freetext (content : String) : List EmailRecord :=
  sortByEmail
    ((extract_emails_from_text content).foldl
      (fun s em => if s.any (fun r => r.email == em) then s else s ++ [⟨"", "", em⟩]) [])

/-! ## The header-row index, stated (claim C2)

The claim's "minimum row at which any detection first fired" and the
characterization the code actually satisfies, used by the C2 theorems
below. -/

/-- Minimum of two optional indices (the claim's "minimum row index at
which any detection first fired"). -/
def optMin : Option Nat → Option Nat → Option Nat
  | none, b => b
  | some a, none => some a
  | some a, some b => some (min a b)

/-- The first-name detection fires on a row. -/
def rowHasFN (row : List String) : Bool := (firstIdx isFNCellN (row.map normCell)).isSome

/-- The last-name detection fires on a row. -/
def rowHasLN (row : List String) : Bool := (firstIdx isLNCellN (row.map normCell)).isSome

/-- The email detection fires on a row. -/
def rowHasEM (row : List String) : Bool := (firstIdx isEMCellN (row.map normCell)).isSome

/-- The claim's stated header row: the minimum row index (over the first
5 rows) at which any of the three detections first fired.  Stated from
the spec's words, to be compared with `headerScan`. -/
def claimedHeaderRow (rows : List (List String)) : Option Nat :=
  optMin (optMin (firstIdx rowHasFN (rows.take 5)) (firstIdx rowHasLN (rows.take 5)))
    (firstIdx rowHasEM (rows.take 5))

/-- What the code actually computes: the row of the first-name
detection's (unique) firing when it fires within the first 5 rows,
otherwise the minimum of the last-name and email firings. -/
def actualHeaderRow (rows : List (List String)) : Option Nat :=
  match firstIdx rowHasFN (rows.take 5) with
  | some k => some k
  | none => optMin (firstIdx rowHasLN (rows.take 5)) (firstIdx rowHasEM (rows.take 5))

def loopHeaderSpec (rs : List (List String)) (i : Nat) (st : HeaderState) : Option Nat :=
  match st.firstNameCol with
  | some _ => st.headerRow
  | none =>
    match firstIdx rowHasFN rs with
    | some k => some (i + k)
    | none =>
      match st.headerRow with
      | some h => some h
      | none => (optMin (firstIdx rowHasLN rs) (firstIdx rowHasEM rs)).map (fun k => i + k)

/-! ## VCF ingester (lines 45-151 of src/main.py)

`parse_vcf_file` reads the file and works on the content with regexes;
the model takes the decoded content string and embeds everything from
line 63 down.  Hand compilations: `BEGIN:VCARD(.*?)END:VCARD` with
DOTALL+IGNORECASE captures, at each BEGIN, up to the *first* END after
it (lazy `.*?`), and the scan resumes after that END; the MULTILINE
field regexes `^TAG(?:;.*?)?:(.*?)(?:\r?\n|$)` match line-wise — after
the case-insensitive tag the optional parameter group consumes `;` up to
the first `:` on the line (lazy), or the tag is followed directly by
`:`; both alternatives start with distinct characters, so the greedy
option order does not matter; the capture is the rest of the line minus
one trailing `'\r'` (a trailing `'\r'` on the very last line of a card,
with no newline after it, would be kept by Python's `$` — no claim
touches that corner).  The validation regex of line 126 is the
extractor's pattern anchored with `re.match` and `$` instead of the two
`\b`. -/

/-- Case-insensitive prefix test (ASCII lowering), for the IGNORECASE
markers and tags; `pat` is given lower-case. -/
def lowerEqPre (pat : List Char) (l : List Char) : Bool :=
  (l.take pat.length).map Char.toLower == pat

/-- Index of the first case-insensitive occurrence of `pat`. -/
def findCIdx (pat : List Char) : List Char → Option Nat
  | [] => if pat.isEmpty then some 0 else none
  | l@(_ :: rest) =>
    if lowerEqPre pat l then some 0 else (findCIdx pat rest).map (· + 1)

/-- `re.findall(r'BEGIN:VCARD(.*?)END:VCARD', content, DOTALL|IGNORECASE)`
(line 64): every span between a `BEGIN:VCARD` and the first `END:VCARD`
after it.  Each step consumes at least one character, so the fuel
`length + 1` never runs out. -/
def findCards : Nat → List Char → List (List Char)
  | 0, _ => []
  | _ + 1, [] => []
  | fuel + 1, l@(_ :: rest) =>
    if lowerEqPre "begin:vcard".data l then
      match findCIdx "end:vcard".data (l.drop 11) with
      | some k => (l.drop 11).take k :: findCards fuel ((l.drop 11).drop (k + 9))
      | none => findCards fuel rest
    else findCards fuel rest

/-- `vcard.split('\n')`. -/
def splitOnCharAux (sep : Char) : List Char → List Char → List (List Char)
  | [], acc => [acc.reverse]
  | c :: rest, acc =>
    if c = sep then acc.reverse :: splitOnCharAux sep rest []
    else splitOnCharAux sep rest (c :: acc)

/-- Split a character list at every `sep` (Python `str.split(sep)`). -/
def splitOnChar (sep : Char) (l : List Char) : List (List Char) :=
  splitOnCharAux sep l []

/-- The line unfolding of lines 73-82: a line starting with a space or
tab continues the previous logical line (its first character dropped);
a leading continuation with no previous line is discarded. -/
def unfoldLines (lines : List (List Char)) : List (List Char) :=
  lines.foldl
    (fun acc line =>
      match line with
      | [] => acc ++ [[]]
      | c :: rest =>
        if c = ' ' ∨ c = '\t' then
          match acc.getLast? with
          | none => acc
          | some la => acc.dropLast ++ [la ++ rest]
        else acc ++ [line])
    []

/-- The capture's trailing `\r` strip (the `(?:\r?\n|$)` tail). -/
def stripCR (v : List Char) : List Char :=
  if v.getLast? = some '\r' then v.dropLast else v

/-- One line against `^TAG(?:;.*?)?:(.*?)(?:\r?\n|$)` (IGNORECASE):
returns the captured value.  `tag` is given lower-case. -/
def fieldValue (tag : List Char) (line : List Char) : Option (List Char) :=
  if (line.take tag.length).map Char.toLower == tag then
    match line.drop tag.length with
    | ':' :: v => some (stripCR v)
    | ';' :: r =>
      if r.contains ':' then some (stripCR ((r.dropWhile (fun c => c != ':')).tail))
      else none
    | _ => none
  else none

/-- `re.search` of a field regex over the unfolded card: the first line
that matches. -/
def firstField (tag : List Char) : List (List Char) → Option (List Char)
  | [] => none
  | l :: ls =>
    match fieldValue tag l with
    | some v => some v
    | none => firstField tag ls

/-- `email.rstrip(';: \t')` (line 123). -/
def pyRstripFieldChars (l : List Char) : List Char :=
  (l.reverse.dropWhile (fun c => c == ';' || c == ':' || c == ' ' || c == '\t')).reverse

/-- `full_name.split(None, 1)` (line 106): drop leading whitespace, cut
the first whitespace run; the remainder keeps its trailing spaces. -/
def splitFirstWs (l : List Char) : List (List Char) :=
  let l1 := l.dropWhile Char.isWhitespace
  if l1 = [] then []
  else
    let tok := l1.takeWhile (fun c => !c.isWhitespace)
    let rest := (l1.drop tok.length).dropWhile Char.isWhitespace
    if rest = [] then [tok] else [tok, rest]

/-- The `[A-Z|a-z]{2,}$` tail of the anchored validation pattern:
candidate label lengths count down from the maximal run; `$` accepts the
end of the string or a final newline just after. -/
def tryTldAnchored (rest : List Char) : Nat → Bool
  | 0 => false
  | 1 => false
  | t + 2 =>
    ((rest.length == t + 2) || (rest.length == t + 3 && rest.getLast? == some '\n'))
      || tryTldAnchored rest (t + 1)

/-- The `[A-Za-z0-9.-]+\.[A-Z|a-z]{2,}$` tail after the `@`. -/
def tryDomAnchored (rest2 : List Char) : Nat → Bool
  | 0 => false
  | k + 1 =>
    (rest2.get? (k + 1) == some '.'
        && tryTldAnchored (rest2.drop (k + 2)) (rest2.drop (k + 2) |>.takeWhile isTldChar).length)
      || tryDomAnchored rest2 k

/-- `re.match(r'^[A-Za-z0-9._%+-]+@[A-Za-z0-9.-]+\.[A-Z|a-z]{2,}$', email)`
(line 126): the extractor's pattern, anchored. -/
def matchEmailAnchored (e : List Char) : Bool :=
  let loc := e.takeWhile isLocalChar
  !loc.isEmpty &&
    match e.drop loc.length with
    | '@' :: rest2 => tryDomAnchored rest2 (rest2.takeWhile isDomainChar).length
    | _ => false

/-- One vCard (the body of the `for vcard in vcards` loop, lines
70-143): unfold, extract FN/N/EMAIL, clean and validate the emails,
insert-or-merge each with the card's names. -/
def processCard (store : List EmailRecord) (card : List Char) : List EmailRecord :=
  let lines := unfoldLines (splitOnChar '\n' card)
  let full_name :=
    match firstField "fn".data lines with
    | some v => pyStripL v
    | none => []
  let names1 :=
    match firstField "n".data lines with
    | some v =>
      let parts := (splitOnChar ';' v).map pyStripL
      if 2 ≤ parts.length then (parts.getD 1 [], parts.getD 0 [])
      else if parts.length = 1 ∧ parts.getD 0 [] ≠ [] then ([], parts.getD 0 [])
      else ([], [])
    | none => ([], [])
  let names2 :=
    if full_name ≠ [] ∧ names1.1 = [] ∧ names1.2 = [] then
      match splitFirstWs full_name with
      | [a, b] => (a, b)
      | [a] => (a, [])
      | _ => ([], [])
    else names1
  let cleaned := (lines.filterMap (fieldValue "email".data)).filterMap
    (fun v =>
      let e := pyRstripFieldChars (pyStripL v)
      if e.contains '@' ∧ matchEmailAnchored e then some e else none)
  cleaned.foldl
    (fun s em => insertOrMerge s (String.mk names2.1) (String.mk names2.2) (String.mk em))
    store

/-- `parse_vcf_file` (lines 45-151) from the decoded content down: card
splitting (whole content as one card when no `BEGIN/END` span is
found), per-card processing, final sort by email. -/
def parse_vcf_records (content : String) : List EmailRecord :=
  let l := content.data
  let found := findCards (l.length + 1) l
  let cards := if found = [] then [l] else found
  sortByEmail (cards.foldl processCard [])

/-! ## Sanity evaluations of the model on concrete inputs -/

example : is_suspicious_email "jane.doe@company.com" = false := by decide

example : is_suspicious_email "a1b2c3d4e5f6g7h8i9j0k1l2m3n4o5p6@test.com" = false := by decide

example : extract_emails_from_text "a@b.c|d" = ["a@b.c|d"] := by decide

example : extract_emails_from_text "x jane.doe@company.com y" = ["jane.doe@company.com"] := by decide

example : extract_emails_from_text "no emails here" = [] := by decide

example : sortByEmail [⟨"", "", "b@x.com"⟩, ⟨"", "", "a@x.com"⟩]
    = [⟨"", "", "a@x.com"⟩, ⟨"", "", "b@x.com"⟩] := by decide

example : (headerScan [["email"], ["first name"]]).headerRow = some 1 := by decide

example : (headerScan [["email"], ["first name"]]).emailCols = [0] := by decide

example : find_emails_in_csv_tabular
    [["First Name", "Last Name", "Email"], ["Ann", "Lee", "ann@x.com"]]
    = [⟨"Ann", "Lee", "ann@x.com"⟩] := by decide

example : find_emails_in_csv_freetext "contact bob@y.org now" = [⟨"", "", "bob@y.org"⟩] := by
  decide

example : parse_vcf_records "BEGIN:VCARD\nFN:John Doe\nEMAIL:john@example.com\nEND:VCARD"
    = [⟨"John", "Doe", "john@example.com"⟩] := by decide

example : parse_vcf_records "BEGIN:VCARD\nN:Doe;Jane\nEMAIL:jane@example.com\nEND:VCARD"
    = [⟨"Jane", "Doe", "jane@example.com"⟩] := by decide

example : parse_vcf_records "no cards here" = [] := by decide

/-! ## Basic lemmas about the classifier and partitioner -/

/-- Splitting at the first `@` reassembles the string. -/
theorem splitLocalDomain_concat :
    ∀ l : List Char, l.contains '@' = true →
      (splitLocalDomain l).1 ++ '@' :: (splitLocalDomain l).2 = l := by
  intro l h
  rw [splitLocalDomain, if_pos h]
  induction l with
  | nil => simp at h
  | cons c rest ih =>
    by_cases hc : c = '@'
    · subst hc; simp [List.takeWhile, List.dropWhile]
    · have hb : (c != '@') = true := by simpa using hc
      have hrest : rest.contains '@' = true := by
        simp [List.contains_cons] at h
        rcases h with h | h
        · exact absurd (by simpa using h.symm) hc
        · simpa using h
      simp only [List.takeWhile, List.dropWhile, hb, List.cons_append]
      rw [ih hrest]

/-- A character other than `'\n'` survives the `$`-anchor strip. -/
theorem mem_stripNL {a : Char} {l : List Char} (h : a ∈ l) (hne : a ≠ '\n') :
    a ∈ stripNL l := by
  rw [stripNL]
  split
  · next hlast =>
    rcases List.eq_nil_or_concat l with rfl | ⟨L, b, rfl⟩
    · simp at h
    · rw [List.concat_eq_append] at h hlast ⊢
      rw [List.dropLast_concat]
      rw [List.getLast?_concat] at hlast
      rcases List.mem_append.1 h with h | h
      · exact h
      · simp at h
        subst h
        exact absurd (by injection hlast) hne
  · exact h

/-- Rule 7's guard is unsatisfiable: `local` can be longer than 30 only
when the email contains `@`, and then the whole email cannot consist of
`[A-Z0-9]` characters. -/
theorem rule7_guard_false (e : List Char) :
    (decide (30 < (splitLocalDomain e).1.length) && matchFullClass isUpperDigit 25 e) = false := by
  by_cases hc : e.contains '@' = true
  · have hmem : '@' ∈ stripNL e := by
      apply mem_stripNL _ (by decide)
      have := splitLocalDomain_concat e hc
      rw [← this]
      exact List.mem_append.2 (Or.inr (List.mem_cons_self _ _))
    have hall : (stripNL e).all isUpperDigit = false := by
      by_contra hb
      have : isUpperDigit '@' = true :=
        List.all_eq_true.1 (eq_true_of_ne_false hb) '@' hmem
      exact absurd this (by decide)
    rw [matchFullClass]
    simp only [hall, Bool.and_false]
  · have hz : splitLocalDomain e = ([], []) := by
      rw [splitLocalDomain, if_neg (by simpa using hc)]
    rw [hz]
    simp

/-- The one step of `filter_suspicious_emails`, characterized as the two
filters, for any starting accumulators. -/
theorem filter_suspicious_foldl (l : List EmailRecord) :
    ∀ v s : List EmailRecord,
      l.foldl
        (fun acc record =>
          if is_suspicious_email record.email then (acc.1, acc.2 ++ [record])
          else (acc.1 ++ [record], acc.2)) (v, s)
      = (v ++ l.filter (fun r => !is_suspicious_email r.email),
         s ++ l.filter (fun r => is_suspicious_email r.email)) := by
  induction l with
  | nil => simp
  | cons r t ih =>
    intro v s
    cases h : is_suspicious_email r.email <;>
      simp [List.foldl_cons, h, ih, List.filter_cons]

/-- Rule 2's guard evaluated at an empty local part. -/
theorem rule2_nil :
    (containsSub "...".data [] || containsSub "___".data [] || containsSub "---".data [])
      = false := by decide

/-- Rule 4's guard evaluated at an empty domain. -/
theorem matchSuspiciousDomain_nil : matchSuspiciousDomain [] = false := by decide

/-- C1: the spec's scenario asserts
`isSuspicious("a1b2c3d4e5f6g7h8i9j0k1l2m3n4o5p6@test.com") = true`; the
classifier of the source returns `false` on that address (the local
part has 32 characters, below rule 1's strict `> 40` threshold, and no
other rule fires), so the claim is false at its own concrete input. -/
theorem claim1_spec_scenario_refuted :
    ¬ (is_suspicious_email "a1b2c3d4e5f6g7h8i9j0k1l2m3n4o5p6@test.com" = true) := by
  decide

/-- C1 (amended): `is_suspicious_email` applied to
`"a1b2c3d4e5f6g7h8i9j0k1l2m3n4o5p6@test.com"` returns `false`: the
32-character local part is below rule 1's `> 40` length threshold and
no other rule fires. -/
theorem claim1_scenario_returns_false :
    is_suspicious_email "a1b2c3d4e5f6g7h8i9j0k1l2m3n4o5p6@test.com" = false := by
  decide

/-- C4: rule 7 of the classifier is dead code.  For every input string
the rule-7 guard (local length > 30 and the entire email matching
`^[A-Z0-9]{25,}$`) is false, and the classifier equals the classifier
with rule 7 removed on every input. -/
theorem claim4_rule7_dead_code (email : String) :
    ((decide (30 < (splitLocalDomain email.data).1.length)
        && matchFullClass isUpperDigit 25 email.data
        && (splitLocalDomain email.data).1.any Char.isUpper
        && (splitLocalDomain email.data).1.any Char.isDigit) = false)
    ∧ is_suspicious_email email = is_suspicious_email_without_rule7 email := by
  have h7 := rule7_guard_false email.data
  constructor
  · rw [h7]
    simp
  · simp only [is_suspicious_email, is_suspicious_email_without_rule7, h7,
      Bool.false_and, Bool.false_eq_true, if_false]

/-- C5: `filter_suspicious_emails` is a strict, order-preserving
partition: the first component is exactly the non-suspicious records,
the second exactly the suspicious ones, together they are a permutation
of the input, they share no record, and each preserves the input's
relative order (is a sublist of the input). -/
theorem claim5_partition (records : List EmailRecord) :
    (filter_suspicious_emails records).1
        = records.filter (fun r => !is_suspicious_email r.email)
    ∧ (filter_suspicious_emails records).2
        = records.filter (fun r => is_suspicious_email r.email)
    ∧ List.Perm
        ((filter_suspicious_emails records).1 ++ (filter_suspicious_emails records).2)
        records
    ∧ List.Disjoint (filter_suspicious_emails records).1 (filter_suspicious_emails records).2
    ∧ List.Sublist (filter_suspicious_emails records).1 records
    ∧ List.Sublist (filter_suspicious_emails records).2 records := by
  have h1 : filter_suspicious_emails records
      = (records.filter (fun r => !is_suspicious_email r.email),
         records.filter (fun r => is_suspicious_email r.email)) := by
    unfold filter_suspicious_emails
    rw [filter_suspicious_foldl]
    simp
  rw [h1]
  refine ⟨rfl, rfl, ?_, ?_, List.filter_sublist _, List.filter_sublist _⟩
  · simpa using List.filter_append_perm (fun r => !is_suspicious_email r.email) records
  · intro a ha hb
    rw [List.mem_filter] at ha hb
    rw [hb.2] at ha
    simp at ha

/-- C10 (counterexample): on nine newlines (a string without `@`), some
character repeats 9 times consecutively, yet the classifier returns
`false`, because rule 6's regex `(.)\1{8,}` cannot capture a newline. -/
theorem claim10_newline_run_refuted :
    ("\n\n\n\n\n\n\n\n\n".data.contains '@') = false
    ∧ specNineRun ("\n\n\n\n\n\n\n\n\n".data.map Char.toLower) = true
    ∧ is_suspicious_email "\n\n\n\n\n\n\n\n\n" = false := by
  decide

/-- C10 (amended): for every input string without `@`, the classifier
splits into empty local and domain parts and returns `true` iff some
single character other than the newline repeats 9 or more times
consecutively in the lower-cased string (rule 6); all other rules are
vacuously false on such input. -/
theorem claim10_no_at_iff_nine_run (email : String)
    (h : email.data.contains '@' = false) :
    is_suspicious_email email = hasNineRun (email.data.map Char.toLower) := by
  have h' : '@' ∉ email.data := by simpa using h
  have hs : splitLocalDomain email.data = ([], []) := by
    simp [splitLocalDomain, h']
  simp only [is_suspicious_email, hs]
  cases h5 : suspiciousKeywords.any (fun k => containsSub k (email.data.map Char.toLower)) <;>
  cases h6 : hasNineRun (email.data.map Char.toLower) <;>
    (simp [h5, h6, matchSuspiciousDomain_nil] <;> decide)

/-- C10 witness: the amended equivalence applied at a concrete `@`-free
input, a run of ten `'a'` characters, where both sides are `true`. -/
theorem claim10_no_at_iff_nine_run_witness :
    is_suspicious_email "aaaaaaaaaa" = hasNineRun ("aaaaaaaaaa".data.map Char.toLower)
    ∧ is_suspicious_email "aaaaaaaaaa" = true :=
  ⟨claim10_no_at_iff_nine_run "aaaaaaaaaa" (by decide), by decide⟩

/-! ## Shape of every extractor match (claim C3) -/

/-- A successful `tryTld` lies between 2 and its starting candidate. -/
theorem tryTld_bounds (rest : List Char) :
    ∀ n t : Nat, tryTld rest n = some t → 2 ≤ t ∧ t ≤ n
  | 0, t, h => by simp [tryTld] at h
  | 1, t, h => by simp [tryTld] at h
  | n + 2, t, h => by
    rw [tryTld] at h
    split at h
    · cases h
      omega
    · have := tryTld_bounds rest (n + 1) t h
      omega

/-- Characters of a `take` within the `takeWhile` run satisfy the
predicate. -/
theorem mem_take_of_le_takeWhile {p : Char → Bool} :
    ∀ (l : List Char) (t : Nat), t ≤ (l.takeWhile p).length →
      ∀ c ∈ l.take t, p c = true := by
  intro l
  induction l with
  | nil =>
    intro t ht c hc
    simp at hc
  | cons a as ih =>
    intro t ht c hc
    cases hpa : p a with
    | false =>
      rw [List.takeWhile_cons, if_neg (by simp [hpa])] at ht
      simp at ht
      subst ht
      simp at hc
    | true =>
      rw [List.takeWhile_cons, if_pos (by simp [hpa])] at ht
      cases t with
      | zero => simp at hc
      | succ t =>
        rw [List.take_succ_cons] at hc
        rcases List.mem_cons.1 hc with rfl | hc'
        · exact hpa
        · exact ih t (by simpa using ht) c hc'

/-- Every match `tryDom` produces decomposes as
`loc ++ '@' :: dom ++ '.' :: tld` with a top-level label of 2+
characters from the `[A-Z|a-z]` class. -/
theorem tryDom_shape :
    ∀ (k : Nat) (loc rest2 m after : List Char),
      tryDom loc rest2 k = some (m, after) →
      ∃ dom tld, m = loc ++ '@' :: (dom ++ '.' :: tld) ∧ 2 ≤ tld.length
        ∧ ∀ c ∈ tld, isTldChar c = true := by
  intro k
  induction k with
  | zero =>
    intro loc rest2 m after h
    simp [tryDom] at h
  | succ k ih =>
    intro loc rest2 m after h
    rw [tryDom] at h
    split at h
    · split at h
      · next t heq =>
        simp only [Option.some.injEq, Prod.mk.injEq] at h
        obtain ⟨hm, -⟩ := h
        subst hm
        have hb := tryTld_bounds _ _ _ heq
        refine ⟨rest2.take (k + 1), (rest2.drop (k + 2)).take t, rfl, ?_, ?_⟩
        · have hlen : ((rest2.drop (k + 2)).take t).length = t := by
            rw [List.length_take]
            have h2 := List.Sublist.length_le (List.takeWhile_sublist isTldChar (l := rest2.drop (k + 2)))
            omega
          rw [hlen]
          exact hb.1
        · exact mem_take_of_le_takeWhile _ t hb.2
      · exact ih loc rest2 m after h
    · exact ih loc rest2 m after h

/-- Every successful `tryMatch` decomposes as
`loc ++ '@' :: dom ++ '.' :: tld` with a 2+ character `[A-Z|a-z]`
label. -/
theorem tryMatch_shape (s : List Char) (prev : Bool) (m after : List Char)
    (h : tryMatch s prev = some (m, after)) :
    ∃ loc dom tld, m = loc ++ '@' :: (dom ++ '.' :: tld) ∧ 2 ≤ tld.length
      ∧ ∀ c ∈ tld, isTldChar c = true := by
  cases s with
  | nil => simp [tryMatch] at h
  | cons c rest =>
    simp only [tryMatch] at h
    split at h
    · split at h
      · simp at h
      · split at h
        · next rest2 heq =>
          rcases tryDom_shape _ _ _ _ _ h with ⟨dom, tld, hm, hlen, hmem⟩
          exact ⟨_, dom, tld, hm, hlen, hmem⟩
        · simp at h
    · simp at h

/-- Every match the findall scan returns has the decomposed shape. -/
theorem scanEmails_shape :
    ∀ (fuel : Nat) (s : List Char) (prev : Bool) (m : List Char),
      m ∈ scanEmails fuel s prev →
      ∃ loc dom tld, m = loc ++ '@' :: (dom ++ '.' :: tld) ∧ 2 ≤ tld.length
        ∧ ∀ c ∈ tld, isTldChar c = true := by
  intro fuel
  induction fuel with
  | zero =>
    intro s prev m hm
    simp [scanEmails] at hm
  | succ f ih =>
    intro s prev m hm
    cases s with
    | nil => simp [scanEmails] at hm
    | cons c rest =>
      rw [scanEmails] at hm
      split at hm
      · next m0 after heq =>
        rcases List.mem_cons.1 hm with rfl | hm'
        · exact tryMatch_shape _ _ _ _ heq
        · exact ih _ _ _ hm'
      · exact ih _ _ _ hm

/-- `takeWhile` of a list that starts with an all-satisfying block and
then a failing character is exactly the block. -/
theorem takeWhile_append_stop {p : Char → Bool} :
    ∀ (a : List Char) (b : Char) (r : List Char),
      (∀ c ∈ a, p c = true) → p b = false →
      ((a ++ b :: r).takeWhile p) = a := by
  intro a b r ha hb
  induction a with
  | nil => simp [List.takeWhile_cons, hb]
  | cons x xs ih =>
    have hx : p x = true := ha x (List.mem_cons_self x xs)
    simp only [List.cons_append, List.takeWhile_cons, hx, if_pos]
    rw [ih (fun c hc => ha c (List.mem_cons_of_mem x hc))]

/-- The part after the last dot of `xs ++ '.' :: tld` is `tld` when
`tld` itself contains no dot. -/
theorem afterLastDot_concat (xs tld : List Char) (h : ∀ c ∈ tld, c ≠ '.') :
    afterLastDot (xs ++ '.' :: tld) = tld := by
  unfold afterLastDot
  rw [List.reverse_append, List.reverse_cons, List.append_assoc, List.singleton_append]
  rw [takeWhile_append_stop _ _ _ ?ball (by decide)]
  · exact List.reverse_reverse tld
  case ball =>
    intro c hc
    have := h c (List.mem_reverse.1 hc)
    simpa using this

/-- C3 (counterexample): on the text `"a@b.c|d"` the extractor returns
the single match `"a@b.c|d"`, whose part after the final dot is
`"c|d"`, which contains the non-letter `'|'` — the pattern's class
`[A-Z|a-z]` admits the literal pipe, refuting "2 or more letters only". -/
theorem claim3_letters_only_refuted :
    "a@b.c|d" ∈ extract_emails_from_text "a@b.c|d"
    ∧ '|' ∈ afterLastDot ("a@b.c|d".data)
    ∧ ('|'.isAlpha = false) := by
  decide

/-- C3 (amended): every substring the extractor returns has the form
`local@domain.label` where the part after the final dot has 2 or more
characters, each a letter **or the literal `'|'`** (the class
`[A-Z|a-z]` of the source's pattern). -/
theorem claim3_tld_shape (text e : String) (h : e ∈ extract_emails_from_text text) :
    2 ≤ (afterLastDot e.data).length
    ∧ ∀ c ∈ afterLastDot e.data, isTldChar c = true := by
  unfold extract_emails_from_text at h
  have h1 := List.mem_dedup.1 h
  rcases List.mem_map.1 h1 with ⟨m, hm, rfl⟩
  unfold findallEmails at hm
  rcases scanEmails_shape _ _ _ _ hm with ⟨loc, dom, tld, heq, hlen, hmem⟩
  have hdata : (String.mk m).data = m := rfl
  rw [hdata, heq]
  have hne : ∀ c ∈ tld, c ≠ '.' := by
    intro c hc hdot
    have := hmem c hc
    rw [hdot] at this
    exact absurd this (by decide)
  have hassoc : loc ++ '@' :: (dom ++ '.' :: tld) = (loc ++ '@' :: dom) ++ '.' :: tld := by
    simp
  rw [hassoc, afterLastDot_concat _ _ hne]
  exact ⟨hlen, hmem⟩

/-- C3 witness: the amended shape property at the concrete text
`"x@y.com"`, whose single extracted email is itself. -/
theorem claim3_tld_shape_witness :
    2 ≤ (afterLastDot ("x@y.com" : String).data).length
    ∧ ∀ c ∈ afterLastDot ("x@y.com" : String).data, isTldChar c = true :=
  claim3_tld_shape "x@y.com" "x@y.com" (by decide)

/-! ## Record store lemmas (claims C6 and C7) -/

/-- Looking up in the mapped store: the merge map rewrites only the
record keyed `em` and never changes any email. -/
theorem findByEmail_map_merge (fn ln em q : String) :
    ∀ s : List EmailRecord,
      findByEmail (s.map (fun r => if r.email == em then mergeRecord r fn ln else r)) q
        = if q = em then (findByEmail s em).map (fun r => mergeRecord r fn ln)
          else findByEmail s q := by
  intro s
  induction s with
  | nil => simp [findByEmail]
  | cons a t ih =>
    simp only [List.map_cons, findByEmail]
    by_cases hae : a.email = em
    · by_cases haq : a.email = q
      · have hqe : q = em := by rw [← haq, hae]
        simp [hae, haq, hqe, mergeRecord]
      · have hqe : q ≠ em := by
          intro h
          exact haq (by rw [hae, h])
        have hga : ¬((if a.email == em then mergeRecord a fn ln else a).email == q) = true := by
          simp [hae, mergeRecord, Ne.symm hqe]
        rw [if_neg hga, ih, if_neg hqe, if_neg hqe]
        simp [haq]
    · by_cases haq : a.email = q
      · have hqe : q ≠ em := by
          intro h
          exact hae (by rw [haq, h])
        simp [hae, haq, hqe, mergeRecord]
      · have hga : ¬((if a.email == em then mergeRecord a fn ln else a).email == q) = true := by
          simp [hae, haq, mergeRecord]
        rw [if_neg hga, ih]
        by_cases hqe : q = em
        · rw [if_pos hqe, if_pos hqe, if_neg (by simp [hae])]
        · rw [if_neg hqe, if_neg hqe, if_neg (by simp [haq])]

/-- Lookup across appending one fresh record. -/
theorem findByEmail_append_single (s : List EmailRecord) (r : EmailRecord) (q : String) :
    findByEmail (s ++ [r]) q =
      match findByEmail s q with
      | some x => some x
      | none => if r.email == q then some r else none := by
  induction s with
  | nil => simp [findByEmail]
  | cons a t ih =>
    simp only [List.cons_append, findByEmail]
    by_cases ha : a.email = q <;> simp [ha, ih]

/-- A store in which no record matches `em` looks up to `none`. -/
theorem findByEmail_eq_none_of_any_false (em : String) :
    ∀ s : List EmailRecord, s.any (fun r => r.email == em) = false →
      findByEmail s em = none := by
  intro s
  induction s with
  | nil => intro _; rfl
  | cons a t ih =>
    intro h
    simp only [List.any_cons, Bool.or_eq_false_iff] at h
    rw [findByEmail, if_neg (by simp [h.1])]
    exact ih h.2

/-- A store in which some record matches `em` looks up to `some`. -/
theorem findByEmail_isSome_of_any (em : String) :
    ∀ s : List EmailRecord, s.any (fun r => r.email == em) = true →
      (findByEmail s em).isSome := by
  intro s
  induction s with
  | nil => intro h; simp at h
  | cons a t ih =>
    intro h
    simp only [findByEmail]
    by_cases ha : a.email = em
    · simp [ha]
    · simp only [List.any_cons] at h
      rcases Bool.or_eq_true_iff.1 h with h1 | h2
      · exact absurd (by simpa using h1) ha
      · simpa [ha] using ih h2

/-- Characterization of one insert-or-merge step: a lookup after the
step sees the merged record at `em`, the fresh record if `em` was
absent, and the untouched store elsewhere. -/
theorem findByEmail_insertOrMerge (s : List EmailRecord) (fn ln em q : String) :
    findByEmail (insertOrMerge s fn ln em) q =
      if q = em then
        (match findByEmail s em with
         | some r => some (mergeRecord r fn ln)
         | none => some ⟨fn, ln, em⟩)
      else findByEmail s q := by
  unfold insertOrMerge
  split
  · next hany =>
    rw [findByEmail_map_merge]
    by_cases hqe : q = em
    · rw [if_pos hqe, if_pos hqe]
      rcases Option.isSome_iff_exists.1 (findByEmail_isSome_of_any em s hany) with ⟨r0, hr0⟩
      rw [hr0]
      rfl
    · rw [if_neg hqe, if_neg hqe]
  · next hany =>
    have hnone : findByEmail s em = none :=
      findByEmail_eq_none_of_any_false em s (by simpa using hany)
    rw [findByEmail_append_single]
    by_cases hqe : q = em
    · subst hqe
      rw [if_pos rfl, hnone]
      simp
    · rw [if_neg hqe]
      cases hf : findByEmail s q with
      | some r => simp
      | none => simp [Ne.symm hqe]

/-- A non-empty first name at key `em` survives any one insert-or-merge
step unchanged (and so does a non-empty last name). -/
theorem insertOrMerge_keeps_names (s : List EmailRecord) (fn ln em : String)
    (r : EmailRecord) (q : String) (h : findByEmail s q = some r) :
    ∃ r2, findByEmail (insertOrMerge s fn ln em) q = some r2
      ∧ (r.first_name ≠ "" → r2.first_name = r.first_name)
      ∧ (r.last_name ≠ "" → r2.last_name = r.last_name) := by
  rw [findByEmail_insertOrMerge]
  by_cases hqe : q = em
  · subst hqe
    rw [if_pos rfl, h]
    refine ⟨mergeRecord r fn ln, rfl, ?_, ?_⟩
    · intro hf
      simp [mergeRecord, hf]
    · intro hl
      simp [mergeRecord, hl]
  · rw [if_neg hqe, h]
    exact ⟨r, rfl, fun _ => rfl, fun _ => rfl⟩

/-- Monotonicity over a whole sequence of sightings: a non-empty name
field at any key is never changed or cleared by later inserts. -/
theorem applySightings_keeps_names :
    ∀ (ops : List (String × String × String)) (s : List EmailRecord)
      (q : String) (r : EmailRecord), findByEmail s q = some r →
      ∃ r2, findByEmail (applySightings s ops) q = some r2
        ∧ (r.first_name ≠ "" → r2.first_name = r.first_name)
        ∧ (r.last_name ≠ "" → r2.last_name = r.last_name) := by
  intro ops
  induction ops with
  | nil =>
    intro s q r h
    exact ⟨r, h, fun _ => rfl, fun _ => rfl⟩
  | cons op rest ih =>
    intro s q r h
    rcases insertOrMerge_keeps_names s op.1 op.2.1 op.2.2 r q h with ⟨r1, h1, hf1, hl1⟩
    rcases ih (insertOrMerge s op.1 op.2.1 op.2.2) q r1 h1 with ⟨r2, h2, hf2, hl2⟩
    refine ⟨r2, h2, ?_, ?_⟩
    · intro hf
      rw [hf2 (by rw [hf1 hf]; exact hf), hf1 hf]
    · intro hl
      rw [hl2 (by rw [hl1 hl]; exact hl), hl1 hl]

/-- A successful lookup returns a record keyed by the looked-up email. -/
theorem findByEmail_email :
    ∀ (s : List EmailRecord) (em : String) (r : EmailRecord),
      findByEmail s em = some r → r.email = em := by
  intro s
  induction s with
  | nil =>
    intro em r h
    simp [findByEmail] at h
  | cons a t ih =>
    intro em r h
    rw [findByEmail] at h
    split at h
    · next hae =>
      cases h
      simpa using hae
    · exact ih em r h

/-- C6: record-merge is monotonic, per field.  For any record already
in the store under the looked-up email: a non-empty `first_name`
(respectively `last_name`) survives an arbitrary sequence of later
insert-or-merge operations unchanged, regardless of the other field's
state; and under one later insert-or-merge of the same email, each
field independently is kept when non-empty, filled when empty and the
sighting carries a non-empty value for it, and left empty when empty
and the sighting's value for it is empty — so the first later sighting
with a non-empty value for a field is the one that fills it. -/
theorem claim6_merge_monotonic
    (s : List EmailRecord) (ops : List (String × String × String))
    (em fn ln : String) (r : EmailRecord)
    (h : findByEmail s em = some r) :
    (∃ r2, findByEmail (applySightings s ops) em = some r2
       ∧ (r.first_name ≠ "" → r2.first_name = r.first_name)
       ∧ (r.last_name ≠ "" → r2.last_name = r.last_name))
    ∧ (∃ r1, findByEmail (insertOrMerge s fn ln em) em = some r1
       ∧ (r.first_name ≠ "" → r1.first_name = r.first_name)
       ∧ (r.first_name = "" → fn ≠ "" → r1.first_name = fn)
       ∧ (r.first_name = "" → fn = "" → r1.first_name = "")
       ∧ (r.last_name ≠ "" → r1.last_name = r.last_name)
       ∧ (r.last_name = "" → ln ≠ "" → r1.last_name = ln)
       ∧ (r.last_name = "" → ln = "" → r1.last_name = "")) := by
  constructor
  · exact applySightings_keeps_names ops s em r h
  · rw [findByEmail_insertOrMerge, if_pos rfl, h]
    refine ⟨mergeRecord r fn ln, rfl, ?_, ?_, ?_, ?_, ?_, ?_⟩
    · intro hf
      simp [mergeRecord, hf]
    · intro hf hfn
      simp [mergeRecord, hf, hfn]
    · intro hf hfn
      simp [mergeRecord, hf, hfn]
    · intro hl
      simp [mergeRecord, hl]
    · intro hl hln
      simp [mergeRecord, hl, hln]
    · intro hl hln
      simp [mergeRecord, hl, hln]

/-- C6 witness: the per-field behavior at a concrete mixed-case store:
the record `("Ann", "", "a@b.co")` has a non-empty first name and an
empty last name; the later sighting `("Bob", "Lee")` of the same email
keeps `"Ann"` and fills the last name with `"Lee"`. -/
theorem claim6_merge_monotonic_witness :
    (∃ r2, findByEmail
        (applySightings [⟨"Ann", "", "a@b.co"⟩] [("Bob", "Lee", "a@b.co")]) "a@b.co"
          = some r2
       ∧ ("Ann" ≠ "" → r2.first_name = "Ann")
       ∧ ("" ≠ "" → r2.last_name = ""))
    ∧ (∃ r1, findByEmail (insertOrMerge [⟨"Ann", "", "a@b.co"⟩] "Bob" "Lee" "a@b.co")
          "a@b.co" = some r1
       ∧ ("Ann" ≠ "" → r1.first_name = "Ann")
       ∧ ("Ann" = "" → "Bob" ≠ "" → r1.first_name = "Bob")
       ∧ ("Ann" = "" → "Bob" = "" → r1.first_name = "")
       ∧ ("" ≠ "" → r1.last_name = "")
       ∧ ("" = "" → "Lee" ≠ "" → r1.last_name = "Lee")
       ∧ ("" = "" → "Lee" = "" → r1.last_name = "")) :=
  claim6_merge_monotonic [⟨"Ann", "", "a@b.co"⟩] [("Bob", "Lee", "a@b.co")]
    "a@b.co" "Bob" "Lee" ⟨"Ann", "", "a@b.co"⟩ (by decide)

/-- One insert-or-merge step preserves "all emails pairwise distinct". -/
theorem insertOrMerge_nodup (s : List EmailRecord) (fn ln em : String)
    (h : (s.map EmailRecord.email).Nodup) :
    ((insertOrMerge s fn ln em).map EmailRecord.email).Nodup := by
  unfold insertOrMerge
  split
  · have hmap : (s.map (fun r => if r.email == em then mergeRecord r fn ln else r)).map
        EmailRecord.email = s.map EmailRecord.email := by
      rw [List.map_map]
      apply List.map_congr_left
      intro a _
      by_cases hae : a.email = em <;> simp [hae, mergeRecord]
    rw [hmap]
    exact h
  · next hany =>
    rw [List.map_append]
    apply List.Nodup.append h (by simp)
    intro x hx hx2
    simp only [List.map_cons, List.map_nil, List.mem_singleton] at hx2
    subst hx2
    rcases List.mem_map.1 hx with ⟨r, hr, hrem⟩
    exact hany (List.any_eq_true.2 ⟨r, hr, by simp [hrem]⟩)

/-- Folding any operations through a store with a step that preserves a
property preserves it (used for the row/card loops of the ingesters). -/
theorem foldl_preserves {α β : Type} (P : α → Prop) (f : α → β → α)
    (hf : ∀ a b, P a → P (f a b)) :
    ∀ (l : List β) (a : α), P a → P (l.foldl f a) := by
  intro l
  induction l with
  | nil => intro a h; exact h
  | cons b t ih =>
    intro a h
    rw [List.foldl_cons]
    exact ih (f a b) (hf a b h)

/-- Sorting by email is a permutation, so it preserves the pairwise
distinctness of the emails. -/
theorem sortByEmail_nodup (l : List EmailRecord)
    (h : (l.map EmailRecord.email).Nodup) :
    ((sortByEmail l).map EmailRecord.email).Nodup := by
  have hperm : List.Perm (sortByEmail l) l := List.perm_insertionSort _ l
  exact ((hperm.map EmailRecord.email).nodup_iff).2 h

/-- Sorting by email is a permutation of the store. -/
theorem sortByEmail_perm (l : List EmailRecord) : List.Perm (sortByEmail l) l :=
  List.perm_insertionSort _ l

/-! ## Header-row characterization (claim C2) -/

theorem firstIdx_isSome_iff_any {α : Type} (p : α → Bool) :
    ∀ l : List α, (firstIdx p l).isSome = l.any p := by
  intro l
  induction l with
  | nil => rfl
  | cons a t ih =>
    by_cases hp : p a <;> simp [firstIdx, hp, ih]

theorem optMin_zero_left (x : Option Nat) : optMin (some 0) x = some 0 := by
  cases x <;> simp [optMin]

theorem optMin_zero_right (x : Option Nat) : optMin x (some 0) = some 0 := by
  cases x <;> simp [optMin]

theorem optMin_succ_map (a b : Option Nat) (i : Nat) :
    (optMin (a.map (· + 1)) (b.map (· + 1))).map (fun k => i + k)
      = (optMin a b).map (fun k => (i + 1) + k) := by
  cases a <;> cases b <;> simp [optMin] <;> omega

theorem emailScan_cols (i : Nat) :
    ∀ (cs : List String) (j : Nat) (st : HeaderState),
      (emailScan i cs j st).firstNameCol = st.firstNameCol
      ∧ (emailScan i cs j st).lastNameCol = st.lastNameCol := by
  intro cs
  induction cs with
  | nil => intro j st; exact ⟨rfl, rfl⟩
  | cons c cs ih =>
    intro j st
    simp only [emailScan]
    by_cases hc : isEMCellN c
    · by_cases hj : j ∈ st.emailCols
      · simpa [hc, hj] using ih (j + 1) st
      · simpa [hc, hj] using
          ih (j + 1)
            { st with
              emailCols := st.emailCols ++ [j]
              headerRow := match st.headerRow with | none => some i | some h => some h }
    · simpa [hc] using ih (j + 1) st

theorem emailScan_hr_some (i : Nat) :
    ∀ (cs : List String) (j : Nat) (st : HeaderState) (h : Nat),
      st.headerRow = some h → (emailScan i cs j st).headerRow = some h := by
  intro cs
  induction cs with
  | nil => intro j st h hh; exact hh
  | cons c cs ih =>
    intro j st h hh
    simp only [emailScan]
    by_cases hc : isEMCellN c
    · by_cases hj : j ∈ st.emailCols
      · simpa [hc, hj] using ih (j + 1) st h hh
      · have hmr : (match st.headerRow with | none => some i | some h' => some h') = some h := by
          rw [hh]
        simpa [hc, hj] using
          ih (j + 1)
            { st with
              emailCols := st.emailCols ++ [j]
              headerRow := match st.headerRow with | none => some i | some h' => some h' }
            h (by simpa using hmr)
    · simpa [hc] using ih (j + 1) st h hh

theorem emailScan_id_of_none (i : Nat) :
    ∀ (cs : List String) (j : Nat) (st : HeaderState),
      cs.any isEMCellN = false → emailScan i cs j st = st := by
  intro cs
  induction cs with
  | nil => intro j st _; rfl
  | cons c cs ih =>
    intro j st h
    simp only [List.any_cons, Bool.or_eq_false_iff] at h
    simp only [emailScan, h.1, if_neg]
    · exact ih (j + 1) st h.2

theorem emailScan_hr_of_any (i : Nat) :
    ∀ (cs : List String) (j : Nat) (st : HeaderState),
      st.headerRow = none → st.emailCols = [] → cs.any isEMCellN = true →
      (emailScan i cs j st).headerRow = some i := by
  intro cs
  induction cs with
  | nil => intro j st _ _ h; simp at h
  | cons c cs ih =>
    intro j st hhr hcols hany
    simp only [emailScan]
    by_cases hc : isEMCellN c
    · have hj : ¬ j ∈ st.emailCols := by simp [hcols]
      have hmr : (match st.headerRow with | none => some i | some h' => some h') = some i := by
        rw [hhr]
      simpa [hc, hj] using
        emailScan_hr_some i cs (j + 1)
          { st with
            emailCols := st.emailCols ++ [j]
            headerRow := match st.headerRow with | none => some i | some h' => some h' }
          i (by simpa using hmr)
    · simp only [List.any_cons, hc, Bool.false_or] at hany
      simpa [hc] using ih (j + 1) st hhr hcols hany

/-- The header-scan loop's final `header_row`, characterized: once the
first-name column is found the header row is pinned (the source
overwrites it at the first-name firing); otherwise it is the earliest
last-name or email firing.  `st` must be consistent: an unset header
row means nothing has fired yet. -/
theorem headerLoop_headerRow :
    ∀ (rs : List (List String)) (i : Nat) (st : HeaderState),
      (st.headerRow = none →
        st.firstNameCol = none ∧ st.lastNameCol = none ∧ st.emailCols = []) →
      (headerLoop rs i st).headerRow = loopHeaderSpec rs i st := by
  intro rs
  induction rs with
  | nil =>
    intro i st hinv
    rcases hfn : st.firstNameCol with _ | j0
    · rcases hhr : st.headerRow with _ | h
      · simp [headerLoop, loopHeaderSpec, hfn, hhr, firstIdx, optMin]
      · simp [headerLoop, loopHeaderSpec, hfn, hhr, firstIdx]
    · simp [headerLoop, loopHeaderSpec, hfn]
  | cons r rs ih =>
    intro i st hinv
    rw [headerLoop]
    rcases hfn : st.firstNameCol with _ | j0
    · rcases hrfn : firstIdx isFNCellN (r.map normCell) with _ | j
      · have hrowfn : rowHasFN r = false := by simp [rowHasFN, hrfn]
        have hconsFN : firstIdx rowHasFN (r :: rs) = (firstIdx rowHasFN rs).map (· + 1) := by
          simp [firstIdx, hrowfn]
        rcases hhr : st.headerRow with _ | h
        · obtain ⟨-, hlnN, hcolsN⟩ := hinv hhr
          rcases hfl : firstIdx isLNCellN (r.map normCell) with _ | j1
          · have hrowln : rowHasLN r = false := by simp [rowHasLN, hfl]
            have hconsLN : firstIdx rowHasLN (r :: rs) = (firstIdx rowHasLN rs).map (· + 1) := by
              simp [firstIdx, hrowln]
            cases hany : (r.map normCell).any isEMCellN with
            | false =>
              have hrowem : rowHasEM r = false := by
                simp [rowHasEM, firstIdx_isSome_iff_any, hany]
              have hconsEM : firstIdx rowHasEM (r :: rs) = (firstIdx rowHasEM rs).map (· + 1) := by
                simp [firstIdx, hrowem]
              have hstep : headerStep i r st = st := by
                simp only [headerStep, hfn, hrfn, hlnN, hfl]
                exact emailScan_id_of_none i _ 0 st hany
              rw [hstep, ih (i + 1) st hinv]
              simp only [loopHeaderSpec, hfn, hhr, hconsFN, hconsLN, hconsEM]
              rcases hk : firstIdx rowHasFN rs with _ | k
              · simp [hk, optMin_succ_map]
              · simp [hk]
                omega
            | true =>
              have hrowem : rowHasEM r = true := by
                simp [rowHasEM, firstIdx_isSome_iff_any, hany]
              have hconsEM : firstIdx rowHasEM (r :: rs) = some 0 := by
                simp [firstIdx, hrowem]
              have hstep_hr : (headerStep i r st).headerRow = some i := by
                simp only [headerStep, hfn, hrfn, hlnN, hfl]
                exact emailScan_hr_of_any i _ 0 st hhr hcolsN hany
              have hstep_fn : (headerStep i r st).firstNameCol = none := by
                simp only [headerStep, hfn, hrfn, hlnN, hfl]
                rw [(emailScan_cols i _ 0 st).1]
                exact hfn
              rw [ih (i + 1) _ (by intro hno; simp [hstep_hr] at hno)]
              simp only [loopHeaderSpec, hstep_fn, hfn, hhr, hconsFN, hconsLN, hconsEM,
                hstep_hr]
              rcases hk : firstIdx rowHasFN rs with _ | k
              · simp [hk, optMin_zero_right]
              · simp [hk]
                omega
          · have hrowln : rowHasLN r = true := by simp [rowHasLN, hfl]
            have hconsLN : firstIdx rowHasLN (r :: rs) = some 0 := by
              simp [firstIdx, hrowln]
            have hstep_hr : (headerStep i r st).headerRow = some i := by
              simp only [headerStep, hfn, hrfn, hlnN, hfl]
              apply emailScan_hr_some
              simp [hhr]
            have hstep_fn : (headerStep i r st).firstNameCol = none := by
              simp only [headerStep, hfn, hrfn, hlnN, hfl]
              rw [(emailScan_cols i _ 0 _).1]
            rw [ih (i + 1) _ (by intro hno; simp [hstep_hr] at hno)]
            simp only [loopHeaderSpec, hstep_fn, hfn, hhr, hconsFN, hconsLN, hstep_hr]
            rcases hk : firstIdx rowHasFN rs with _ | k
            · simp [hk, optMin_zero_left]
            · simp [hk]
              omega
        · have hstep_hr : (headerStep i r st).headerRow = some h := by
            simp only [headerStep, hfn, hrfn]
            rcases hln2 : st.lastNameCol with _ | j1
            · rcases hfl : firstIdx isLNCellN (r.map normCell) with _ | j2
              · exact emailScan_hr_some i _ 0 st h hhr
              · apply emailScan_hr_some
                simp [hhr]
            · exact emailScan_hr_some i _ 0 st h hhr
          have hstep_fn : (headerStep i r st).firstNameCol = none := by
            simp only [headerStep, hfn, hrfn]
            rcases hln2 : st.lastNameCol with _ | j1
            · rcases hfl : firstIdx isLNCellN (r.map normCell) with _ | j2
              · rw [(emailScan_cols i _ 0 st).1]
                exact hfn
              · rw [(emailScan_cols i _ 0 _).1]
            · rw [(emailScan_cols i _ 0 st).1]
              exact hfn
          rw [ih (i + 1) _ (by intro hno; simp [hstep_hr] at hno)]
          simp only [loopHeaderSpec, hstep_fn, hfn, hhr, hconsFN, hstep_hr]
          rcases hk : firstIdx rowHasFN rs with _ | k
          · simp [hk]
          · simp [hk]
            omega
      · have hrowfn : rowHasFN r = true := by simp [rowHasFN, hrfn]
        have hconsFN : firstIdx rowHasFN (r :: rs) = some 0 := by
          simp [firstIdx, hrowfn]
        have hstep_hr : (headerStep i r st).headerRow = some i := by
          simp only [headerStep, hfn, hrfn]
          rcases hln2 : st.lastNameCol with _ | j1
          · rcases hfl : firstIdx isLNCellN (r.map normCell) with _ | j2
            · apply emailScan_hr_some
              rfl
            · apply emailScan_hr_some
              simp
          · apply emailScan_hr_some
            rfl
        have hstep_fn : (headerStep i r st).firstNameCol = some j := by
          simp only [headerStep, hfn, hrfn]
          rcases hln2 : st.lastNameCol with _ | j1
          · rcases hfl : firstIdx isLNCellN (r.map normCell) with _ | j2
            · rw [(emailScan_cols i _ 0 _).1]
            · rw [(emailScan_cols i _ 0 _).1]
          · rw [(emailScan_cols i _ 0 _).1]
        rw [ih (i + 1) _ (by intro hno; simp [hstep_hr] at hno)]
        simp only [loopHeaderSpec, hstep_fn, hfn, hstep_hr, hconsFN]
        simp
    · rcases hhr : st.headerRow with _ | h
      · exact absurd hfn (by simp [(hinv hhr).1])
      · have hstep_hr : (headerStep i r st).headerRow = some h := by
          simp only [headerStep, hfn]
          rcases hln2 : st.lastNameCol with _ | j1
          · rcases hfl : firstIdx isLNCellN (r.map normCell) with _ | j2
            · exact emailScan_hr_some i _ 0 st h hhr
            · apply emailScan_hr_some
              simp [hhr]
          · exact emailScan_hr_some i _ 0 st h hhr
        have hstep_fn : (headerStep i r st).firstNameCol = some j0 := by
          simp only [headerStep, hfn]
          rcases hln2 : st.lastNameCol with _ | j1
          · rcases hfl : firstIdx isLNCellN (r.map normCell) with _ | j2
            · rw [(emailScan_cols i _ 0 st).1]
              exact hfn
            · rw [(emailScan_cols i _ 0 _).1]
          · rw [(emailScan_cols i _ 0 st).1]
            exact hfn
        rw [ih (i + 1) _ (by intro hno; simp [hstep_hr] at hno)]
        simp only [loopHeaderSpec, hstep_fn, hfn, hstep_hr, hhr]

/-- C2 (counterexample): on the rows `[["email"], ["first name"]]` the
email detection fires at row 0 and the first-name detection at row 1;
the claim's minimum rule demands header row 0, but the source's
first-name branch overwrites `header_row` unconditionally (line 337),
so the code chooses row 1. -/
theorem claim2_min_rule_refuted :
    (headerScan [["email"], ["first name"]]).headerRow = some 1
    ∧ claimedHeaderRow [["email"], ["first name"]] = some 0 := by
  decide

/-- C2 (amended): the header row the CSV ingester chooses equals the row
index of the first-name detection's firing (within the first 5 rows)
whenever that detection fires — even when the last-name or email
detection fired on an earlier row — and otherwise the minimum row index
of the last-name and email firings; if none fired, no row is treated as
header and data processing starts at row 0. -/
theorem claim2_header_row_characterization (rows : List (List String)) :
    (headerScan rows).headerRow = actualHeaderRow rows
    ∧ csvStartRow rows
        = (match actualHeaderRow rows with | some h => h + 1 | none => 0) := by
  have h1 : (headerScan rows).headerRow = actualHeaderRow rows := by
    rw [headerScan,
      headerLoop_headerRow (rows.take 5) 0 ⟨none, none, [], none⟩
        (fun _ => ⟨rfl, rfl, rfl⟩)]
    simp only [loopHeaderSpec, actualHeaderRow]
    rcases hk : firstIdx rowHasFN (rows.take 5) with _ | k
    · rcases hm : optMin (firstIdx rowHasLN (rows.take 5)) (firstIdx rowHasEM (rows.take 5))
        with _ | v <;> simp [hk, hm]
    · simp [hk]
  refine ⟨h1, ?_⟩
  rw [csvStartRow, h1]

/-! ## The VCF scenario (claim C8) -/

/-- C8: parsing the VCF content
`BEGIN:VCARD\nFN:John Doe\nEMAIL:john@example.com\nEND:VCARD` yields
exactly one record `("John", "Doe", "john@example.com")`: with no `N`
field, the `FN` value is split on the first whitespace run into first
and last name. -/
theorem claim8_vcf_scenario :
    parse_vcf_records "BEGIN:VCARD\nFN:John Doe\nEMAIL:john@example.com\nEND:VCARD"
      = [⟨"John", "Doe", "john@example.com"⟩] := by
  decide

/-! ## Empty results on `@`-free input (claim C9) -/

/-- A successful match attempt needs an `@` in its suffix. -/
theorem tryMatch_mem_at (s : List Char) (prev : Bool) (r : List Char × List Char)
    (h : tryMatch s prev = some r) : '@' ∈ s := by
  cases s with
  | nil => simp [tryMatch] at h
  | cons c rest =>
    simp only [tryMatch] at h
    split at h
    · split at h
      · simp at h
      · split at h
        · next heq =>
          have : '@' ∈ (c :: rest).drop ((c :: rest).takeWhile isLocalChar).length := by
            rw [heq]
            exact List.mem_cons_self _ _
          exact List.drop_subset _ _ this
        · simp at h
    · simp at h

/-- The findall scan of an `@`-free string returns nothing. -/
theorem scanEmails_nil_of_no_at :
    ∀ (fuel : Nat) (s : List Char) (prev : Bool), '@' ∉ s →
      scanEmails fuel s prev = [] := by
  intro fuel
  induction fuel with
  | zero => intro s prev _; rfl
  | succ f ih =>
    intro s prev hs
    cases s with
    | nil => rfl
    | cons c rest =>
      rw [scanEmails]
      cases hm : tryMatch (c :: rest) prev with
      | some r => exact absurd (tryMatch_mem_at _ _ _ hm) hs
      | none => exact ih rest _ (fun hmem => hs (List.mem_cons_of_mem c hmem))

/-- The extractor finds nothing in `@`-free text. -/
theorem extract_emails_nil_of_no_at (text : String) (h : '@' ∉ text.data) :
    extract_emails_from_text text = [] := by
  unfold extract_emails_from_text findallEmails
  rw [scanEmails_nil_of_no_at _ _ _ h]
  rfl

/-- A fold whose step never changes the accumulator is the identity. -/
theorem foldl_id {α β : Type} (f : α → β → α) :
    ∀ l : List β, (∀ acc x, x ∈ l → f acc x = acc) → ∀ acc, l.foldl f acc = acc := by
  intro l
  induction l with
  | nil => intro _ acc; rfl
  | cons b t ih =>
    intro h acc
    rw [List.foldl_cons, h acc b (List.mem_cons_self b t)]
    exact ih (fun acc2 x hx => h acc2 x (List.mem_cons_of_mem b hx)) acc

/-- A row whose cells are all `@`-free contributes no emails. -/
theorem rowEmails_nil (emailCols : List Nat) (row : List String)
    (h : ∀ cell ∈ row, '@' ∉ (cell : String).data) :
    rowEmails emailCols row = [] := by
  unfold rowEmails
  have h1 : ∀ (acc : List String) (j : Nat), j ∈ emailCols →
      (match row.get? j with
       | some cell =>
         if pyStrip cell ≠ "" then acc ++ extract_emails_from_text cell else acc
       | none => acc) = acc := by
    intro acc j _
    cases hg : row.get? j with
    | none => rfl
    | some cell =>
      show (if pyStrip cell ≠ "" then acc ++ extract_emails_from_text cell else acc) = acc
      rw [extract_emails_nil_of_no_at cell (h cell (List.get?_mem hg))]
      simp
  have h2 : ∀ (acc : List String) (cell : String), cell ∈ row →
      (if cell ≠ "" ∧ pyStrip cell ≠ "" then acc ++ extract_emails_from_text cell else acc)
        = acc := by
    intro acc cell hc
    rw [extract_emails_nil_of_no_at cell (h cell hc)]
    simp
  dsimp only
  rw [foldl_id _ emailCols h1, foldl_id _ row h2]
  rfl

/-- C9: a file whose content contains none of the four delimiter
characters and no `@` yields an empty record list from the CSV
ingester, on both possible routes: the free-text route extracts nothing
from the content, and the tabular route (whatever rows a dialect guess
would produce from such content — their cells are substrings carrying
no `@`) finds no email in any cell. -/
theorem claim9_no_delim_no_at_empty (content : String) (rows : List (List String))
    (_hdelim : content.data.all
      (fun c => !(c == ',' || c == ';' || c == '\t' || c == '|')) = true)
    (hc : content.data.contains '@' = false)
    (hr : ∀ row ∈ rows, ∀ cell ∈ row, '@' ∉ (cell : String).data) :
    find_emails_in_csv_freetext content = [] ∧ find_emails_in_csv_tabular rows = [] := by
  constructor
  · unfold find_emails_in_csv_freetext
    rw [extract_emails_nil_of_no_at content (by simpa using hc)]
    rfl
  · unfold find_emails_in_csv_tabular
    split
    · rfl
    · have hfold : (rows.drop (csvStartRow rows)).foldl (processRow (headerScan rows)) []
          = [] := by
        apply foldl_id
        intro acc row hrow
        unfold processRow
        rw [rowEmails_nil _ row (hr row (List.drop_subset _ _ hrow))]
        rfl
      dsimp only
      rw [hfold]
      rfl

/-- C9 witness: the concrete content `"hello world"` (no delimiter
characters, no `@`) and the rows a space-delimited dialect guess would
produce from it. -/
theorem claim9_no_delim_no_at_empty_witness :
    find_emails_in_csv_freetext "hello world" = []
    ∧ find_emails_in_csv_tabular [["hello", "world"]] = [] :=
  claim9_no_delim_no_at_empty "hello world" [["hello", "world"]]
    (by decide) (by decide) (by decide)

/-! ## Email uniqueness of every ingester route (claim C7) -/

/-- The free-text branch's insert of a fresh email preserves pairwise
distinct emails. -/
theorem freshInsert_nodup (s : List EmailRecord) (em : String)
    (h : (s.map EmailRecord.email).Nodup) :
    (((if s.any (fun r => r.email == em) then s else s ++ [⟨"", "", em⟩])
        : List EmailRecord).map EmailRecord.email).Nodup := by
  split
  · exact h
  · next hany =>
    rw [List.map_append]
    apply List.Nodup.append h (by simp)
    intro x hx hx2
    simp only [List.map_cons, List.map_nil, List.mem_singleton] at hx2
    subst hx2
    rcases List.mem_map.1 hx with ⟨r, hr, hrem⟩
    exact hany (List.any_eq_true.2 ⟨r, hr, by simp [hrem]⟩)

/-- Processing one data row preserves pairwise distinct emails. -/
theorem processRow_nodup (ctx : HeaderState) (st : List EmailRecord) (row : List String)
    (h : (st.map EmailRecord.email).Nodup) :
    ((processRow ctx st row).map EmailRecord.email).Nodup := by
  unfold processRow
  dsimp only
  exact foldl_preserves (fun l => (l.map EmailRecord.email).Nodup) _
    (fun a2 em hp2 => insertOrMerge_nodup a2 _ _ _ hp2) _ st h

/-- Processing one vCard preserves pairwise distinct emails. -/
theorem processCard_nodup (st : List EmailRecord) (card : List Char)
    (h : (st.map EmailRecord.email).Nodup) :
    ((processCard st card).map EmailRecord.email).Nodup := by
  unfold processCard
  dsimp only
  exact foldl_preserves (fun l => (l.map EmailRecord.email).Nodup) _
    (fun a2 em hp2 => insertOrMerge_nodup a2 _ _ _ hp2) _ st h

/-- C7: within one run, no ingester output ever holds two records with
the same email: the tabular CSV route, the free-text CSV route and the
VCF route all produce record lists with pairwise distinct emails. -/
theorem claim7_email_uniqueness :
    (∀ rows : List (List String),
      ((find_emails_in_csv_tabular rows).map EmailRecord.email).Nodup)
    ∧ (∀ content : String,
      ((find_emails_in_csv_freetext content).map EmailRecord.email).Nodup)
    ∧ (∀ content : String,
      ((parse_vcf_records content).map EmailRecord.email).Nodup) := by
  refine ⟨?_, ?_, ?_⟩
  · intro rows
    unfold find_emails_in_csv_tabular
    split
    · simp
    · dsimp only
      apply sortByEmail_nodup
      exact foldl_preserves (fun l => (l.map EmailRecord.email).Nodup) _
        (fun a row hp => processRow_nodup _ a row hp) _ [] (by simp)
  · intro content
    unfold find_emails_in_csv_freetext
    apply sortByEmail_nodup
    exact foldl_preserves (fun l => (l.map EmailRecord.email).Nodup) _
      (fun a em hp => freshInsert_nodup a em hp) _ [] (by simp)
  · intro content
    unfold parse_vcf_records
    dsimp only
    apply sortByEmail_nodup
    exact foldl_preserves (fun l => (l.map EmailRecord.email).Nodup) _
      (fun a card hp => processCard_nodup a card hp) _ [] (by simp)
